import Mathlib

/-!
Verification of the proglog segment/store/index storage core.

The Go sources under `internal/log` are embedded shallowly:

* `store.go`  — append-only file of length-prefixed payloads (`Store`);
* `index.go`  — fixed-capacity memory-mapped file of 12-byte entries (`Index`);
* `segment.go` — the segment composing one store and one index (`Segment`).

Machine integers (`uint64`, `uint32`, `int64`) are modelled as `Nat`/`Int`
with explicit reductions modulo `2^64` / `2^32` exactly where the Go code
performs wrap-around arithmetic or narrowing conversions.  Files, buffers
and memory maps are `List Nat` (one `Nat` per byte).  Fallible operations
return `Except LogErr`.
-/

namespace Proglog

/-- Errors surfaced by the storage core.  `eof` stands for Go's `io.EOF`
(the end-of-data signal used by the index and by out-of-range store reads);
`ioFail` for any other I/O failure; `marshalFail` for a protobuf
(de)serialization failure. -/
inductive LogErr
  | eof
  | ioFail
  | marshalFail
deriving DecidableEq, Repr

/-- Width of the length prefix a store entry carries (`lenWidth` in store.go). -/
def lenWidth : Nat := 8

/-- Width of the relative-offset field of an index entry (`offWidth`). -/
def offWidth : Nat := 4

/-- Width of the position field of an index entry (`posWidth`). -/
def posWidth : Nat := 8

/-- Width of one full index entry (`entWidth = offWidth + posWidth`). -/
def entWidth : Nat := offWidth + posWidth

/-- Reduction modulo `2^64`: the effect of storing a value in a Go `uint64`. -/
def w64 (n : Nat) : Nat := n % 2 ^ 64

/-- Go `uint64` subtraction `a - b` (wrap-around), for `a` already reduced. -/
def sub64 (a b : Nat) : Nat := (a % 2 ^ 64 + (2 ^ 64 - b % 2 ^ 64)) % 2 ^ 64

/-- Reinterpretation of a `uint64` as Go's `int64` (two's complement). -/
def int64OfUInt64 (u : Nat) : Int :=
  if u % 2 ^ 64 < 2 ^ 63 then (u % 2 ^ 64 : Nat) else (u % 2 ^ 64 : Nat) - 2 ^ 64

/-- Go's conversion `uint32(x)` applied to an `int64` value: the low 32 bits
of the two's-complement representation. -/
def uint32OfInt (x : Int) : Nat := (x % (2 ^ 32 : Int)).toNat

/-- Big-endian encoding of `n mod 256^k` on exactly `k` bytes
(the layout produced by `binary.BigEndian.PutUint32/PutUint64`). -/
def toBytesBE (k n : Nat) : List Nat :=
  match k with
  | 0 => []
  | k + 1 => toBytesBE k (n / 256) ++ [n % 256]

/-- Big-endian decoding of a byte list
(the layout read by `binary.BigEndian.Uint32/Uint64`). -/
def fromBytesBE (bs : List Nat) : Nat :=
  bs.foldl (fun a b => a * 256 + b) 0

/-- The 8-byte big-endian image of a `uint64` value. -/
def uint64ToBytes (n : Nat) : List Nat := toBytesBE 8 n

/-- The 4-byte big-endian image of a `uint32` value. -/
def uint32ToBytes (n : Nat) : List Nat := toBytesBE 4 n

/-- Go slice `l[pos : pos+k]` of a byte list. -/
def sliceL (l : List Nat) (pos k : Nat) : List Nat := (l.drop pos).take k

/-- In-place write of the bytes `v` at position `pos` of `l`
(the effect of `PutUint32`/`PutUint64` on a memory-mapped region). -/
def overwrite (l : List Nat) (pos : Nat) (v : List Nat) : List Nat :=
  l.take pos ++ v ++ l.drop (pos + v.length)

theorem entWidth_eq : entWidth = 12 := rfl

theorem length_toBytesBE (k n : Nat) : (toBytesBE k n).length = k := by
  induction k generalizing n with
  | zero => rfl
  | succ k ih => simp [toBytesBE, ih]

theorem fromBytesBE_append_singleton (bs : List Nat) (b : Nat) :
    fromBytesBE (bs ++ [b]) = fromBytesBE bs * 256 + b := by
  simp [fromBytesBE]

theorem fromBytesBE_toBytesBE (k n : Nat) :
    fromBytesBE (toBytesBE k n) = n % 256 ^ k := by
  induction k generalizing n with
  | zero => simp [toBytesBE, fromBytesBE, Nat.mod_one]
  | succ k ih =>
    rw [toBytesBE, fromBytesBE_append_singleton, ih, pow_succ', Nat.mod_mul]
    ring

theorem fromBytesBE_uint64ToBytes (n : Nat) (h : n < 2 ^ 64) :
    fromBytesBE (uint64ToBytes n) = n := by
  rw [uint64ToBytes, fromBytesBE_toBytesBE]
  exact Nat.mod_eq_of_lt (by norm_num at h ⊢; omega)

theorem fromBytesBE_uint32ToBytes (n : Nat) (h : n < 2 ^ 32) :
    fromBytesBE (uint32ToBytes n) = n := by
  rw [uint32ToBytes, fromBytesBE_toBytesBE]
  exact Nat.mod_eq_of_lt (by norm_num at h ⊢; omega)

theorem length_uint64ToBytes (n : Nat) : (uint64ToBytes n).length = 8 :=
  length_toBytesBE 8 n

theorem length_uint32ToBytes (n : Nat) : (uint32ToBytes n).length = 4 :=
  length_toBytesBE 4 n

theorem sub64_eq_sub (a b : Nat) (hb : b ≤ a) (ha : a < 2 ^ 64) :
    sub64 a b = a - b := by
  have hb' : b < 2 ^ 64 := lt_of_le_of_lt hb ha
  rw [sub64, Nat.mod_eq_of_lt ha, Nat.mod_eq_of_lt hb']
  have : a + (2 ^ 64 - b) = (a - b) + 2 ^ 64 := by omega
  rw [this, Nat.add_mod_right, Nat.mod_eq_of_lt (by omega)]

theorem int64OfUInt64_ofNat (u : Nat) (h : u < 2 ^ 63) :
    int64OfUInt64 u = (u : Int) := by
  have h64 : u < 2 ^ 64 := lt_of_lt_of_le h (by norm_num)
  rw [int64OfUInt64, Nat.mod_eq_of_lt h64, if_pos h]

theorem uint32OfInt_ofNat (n : Nat) :
    uint32OfInt (n : Int) = n % 2 ^ 32 := by
  rw [uint32OfInt]
  have : ((n : Int) % (2 ^ 32 : Int)) = ((n % 2 ^ 32 : Nat) : Int) := by
    push_cast
    rfl
  rw [this, Int.toNat_ofNat]

/-- Decidable equality for `Except` results, so that concrete runs of the
embedded operations can be checked by `decide`. -/
instance {e a : Type} [DecidableEq e] [DecidableEq a] :
    DecidableEq (Except e a) := fun x y =>
  match x, y with
  | .ok u, .ok v =>
    if h : u = v then .isTrue (by rw [h]) else .isFalse (by simp [h])
  | .error u, .error v =>
    if h : u = v then .isTrue (by rw [h]) else .isFalse (by simp [h])
  | .ok _, .error _ => .isFalse (by simp)
  | .error _, .ok _ => .isFalse (by simp)

/-- Modelled from the spec: the `api/v1` protobuf `Record` message is not
among the files under `src/`; the spec describes it as a record type with at
least `{Value: bytes, Offset: uint64}`, opaque to this core. -/
structure Record where
  value : List Nat
  offset : Nat
deriving DecidableEq, Repr

/-- Modelled from the spec: `proto.Marshal` for `Record` is external library
code; the spec treats serialization as an opaque invertible encoding of
`{Value, Offset}`.  We model it as the 8-byte big-endian offset followed by
the value bytes. -/
def marshalRecord (r : Record) : List Nat :=
  uint64ToBytes r.offset ++ r.value

/-- Modelled from the spec: `proto.Unmarshal` for `Record`, the inverse of
`marshalRecord`; fails on inputs shorter than the fixed offset prefix. -/
def unmarshalRecord (p : List Nat) : Except LogErr Record :=
  if lenWidth ≤ p.length then
    .ok { value := p.drop lenWidth, offset := fromBytesBE (p.take lenWidth) }
  else .error .marshalFail

/-- The store (`store.go`): the flushed bytes of the underlying file, the
bytes still sitting in the buffered writer, and the recorded size.  The
mutex serializing access is invisible in this sequential embedding. -/
structure Store where
  file : List Nat
  buf : List Nat
  size : Nat
deriving DecidableEq, Repr

/-- Logical content of a store: flushed file bytes followed by the bytes
still in the buffered writer (what any in-process read observes, since
`store.Read` flushes first). -/
def Store.contents (s : Store) : List Nat := s.file ++ s.buf

/-- `newStore` (store.go): wraps an existing file, recording its current
size as reported by `os.Stat`, with an empty write buffer. -/
def newStore (f : List Nat) : Store :=
  { file := f, buf := [], size := f.length }

/-- `store.Append` (store.go): writes the 8-byte big-endian length of `p`
followed by `p` through the buffered writer, advances `size` by the bytes
written, and returns `(bytesWritten, startPosition, newState)`. -/
def Store.Append (s : Store) (p : List Nat) : Nat × Nat × Store :=
  let pos := s.size
  let w := w64 (lenWidth + p.length)
  (w, pos,
    { s with
      buf := s.buf ++ uint64ToBytes p.length ++ p,
      size := w64 (s.size + w) })

/-- `store.Read` (store.go): flushes the buffer, reads the 8-byte length at
`pos`, then reads that many bytes at `pos + lenWidth`.  The flush only moves
bytes from `buf` to `file`, leaving `contents` and `size` unchanged, so the
operation is modelled as a pure query on `contents`; `File.ReadAt` fails
with an end-of-file error whenever it cannot fill its buffer. -/
def Store.Read (s : Store) (pos : Nat) : Except LogErr (List Nat) :=
  let f := s.contents
  if f.length < pos + lenWidth then .error .eof
  else
    let size := fromBytesBE (sliceL f pos lenWidth)
    if f.length < pos + lenWidth + size then .error .eof
    else .ok (sliceL f (pos + lenWidth) size)

/-- `store.Close` truncation view: closing flushes the buffer, so the file
left on disk holds exactly the store's logical contents. -/
def closeStore (s : Store) : List Nat := s.contents

/-- Segment configuration (modelled from the spec: the `Config` type itself
is not among the files under `src/`; the spec records exactly the two
recognized options `Segment.MaxStoreBytes` and `Segment.MaxIndexBytes`). -/
structure Config where
  maxStoreBytes : Nat
  maxIndexBytes : Nat
deriving DecidableEq, Repr

/-- The index (`index.go`): the memory-mapped region (the file extended to
the configured maximum capacity) plus the logical size recorded at open. -/
structure Index where
  mmap : List Nat
  size : Nat
deriving DecidableEq, Repr

/-- `newIndex` (index.go): records the file's current size, truncates the
file to `MaxIndexBytes` (padding with zero bytes or cutting), and maps the
whole region. -/
def newIndex (f : List Nat) (c : Config) : Index :=
  { size := f.length,
    mmap := f.take c.maxIndexBytes ++ List.replicate (c.maxIndexBytes - f.length) 0 }

/-- `index.isMaxed` (index.go): the mapped region cannot hold one more
12-byte entry past the current logical size. -/
def Index.isMaxed (i : Index) : Bool :=
  decide (i.mmap.length < i.size + entWidth)

/-- `index.Read` (index.go): `in = -1` selects the most recent entry via
`uint32((size / entWidth) - 1)` computed in `uint64` arithmetic; any other
`in` is narrowed by `uint32(in)`.  Fails with `io.EOF` when the index is
empty or the addressed entry does not fit below the logical size. -/
def Index.Read (i : Index) (inp : Int) : Except LogErr (Nat × Nat) :=
  if i.size = 0 then .error .eof
  else
    let out : Nat :=
      if inp = -1 then sub64 (i.size / entWidth) 1 % 2 ^ 32
      else uint32OfInt inp
    let pos := out * entWidth
    if i.size < pos + entWidth then .error .eof
    else
      .ok (fromBytesBE (sliceL i.mmap pos offWidth),
           fromBytesBE (sliceL i.mmap (pos + offWidth) posWidth))

/-- `index.Write` (index.go): fails with `io.EOF` when maxed; otherwise puts
the big-endian `uint32` offset and `uint64` position at the logical end of
the mapped region and advances the logical size by one entry width. -/
def Index.Write (i : Index) (off pos : Nat) : Except LogErr Index :=
  if i.isMaxed then .error .eof
  else
    .ok { mmap := overwrite i.mmap i.size (uint32ToBytes off ++ uint64ToBytes pos),
          size := i.size + entWidth }

/-- `index.Close` truncation view: sync writes the mapped region back to the
file, and the file is then truncated to the recorded logical size, so the
file left on disk is the logical prefix of the mapped region. -/
def closeIndex (i : Index) : List Nat := i.mmap.take i.size

/-- The segment (`segment.go`): one store plus one index sharing a base
offset, the next offset to assign, and the configuration. -/
structure Segment where
  store : Store
  index : Index
  baseOffset : Nat
  nextOffset : Nat
  config : Config
deriving DecidableEq, Repr

/-- `newSegment` (segment.go): opens or creates the two files, then recovers
`nextOffset` from the index's most recent entry — `baseOffset` when the
index read fails, `baseOffset + off + 1` (in `uint64` arithmetic) when the
last entry holds relative offset `off`. -/
def newSegment (storeFile indexFile : List Nat) (baseOffset : Nat) (c : Config) :
    Segment :=
  let st := newStore storeFile
  let ix := newIndex indexFile c
  let next :=
    match ix.Read (-1) with
    | .error _ => baseOffset
    | .ok (off, _) => w64 (baseOffset + off + 1)
  { store := st, index := ix, baseOffset := baseOffset, nextOffset := next,
    config := c }

/-- `segment.Append` (segment.go): stamps `record.Offset = nextOffset`,
marshals, appends the bytes to the store, writes
`(uint32(nextOffset - baseOffset), position)` to the index, and only then
increments `nextOffset`.  When the index write fails the store keeps the
already-appended bytes (benign dead space) and `nextOffset` is untouched. -/
def Segment.Append (s : Segment) (record : Record) : Except LogErr Nat × Segment :=
  let cur := s.nextOffset
  let p := marshalRecord { record with offset := cur }
  match s.store.Append p with
  | (_, pos, st) =>
    match s.index.Write (sub64 s.nextOffset s.baseOffset % 2 ^ 32) pos with
    | .error e => (.error e, { s with store := st })
    | .ok ix =>
      (.ok cur,
       { s with store := st, index := ix, nextOffset := w64 (s.nextOffset + 1) })

/-- `segment.Read` (segment.go): converts the global offset to the relative
`int64(off - baseOffset)`, reads the index for the position, reads the store
bytes there, and unmarshals them. -/
def Segment.Read (s : Segment) (off : Nat) : Except LogErr Record :=
  match s.index.Read (int64OfUInt64 (sub64 off s.baseOffset)) with
  | .error e => .error e
  | .ok (_, pos) =>
    match s.store.Read pos with
    | .error e => .error e
    | .ok p => unmarshalRecord p

/-- `segment.IsMaxed` (segment.go): the store reached its configured limit,
or the index reached its configured limit, or the index cannot hold another
entry. -/
def Segment.IsMaxed (s : Segment) : Bool :=
  decide (s.config.maxStoreBytes ≤ s.store.size) ||
  decide (s.config.maxIndexBytes ≤ s.index.size) ||
  s.index.isMaxed

/-- `segment.Close` file view: index close truncates the index file to its
logical size; store close flushes the buffer.  Returns the pair of on-disk
files `(storeFile, indexFile)` a reopened segment would find. -/
def closeSegment (s : Segment) : List Nat × List Nat :=
  (closeStore s.store, closeIndex s.index)

/-- Byte image of a list of `(relativeOffset, position)` index entries, laid
out as consecutive 12-byte big-endian entries. -/
def entsBytes : List (Nat × Nat) → List Nat
  | [] => []
  | e :: t => uint32ToBytes e.1 ++ (uint64ToBytes e.2 ++ entsBytes t)

theorem length_entsBytes (ps : List (Nat × Nat)) :
    (entsBytes ps).length = entWidth * ps.length := by
  induction ps with
  | nil => simp [entsBytes]
  | cons e t ih =>
    simp [entsBytes, length_uint32ToBytes, length_uint64ToBytes, ih, entWidth,
      offWidth, posWidth, Nat.mul_succ]
    omega

theorem entsBytes_append (a b : List (Nat × Nat)) :
    entsBytes (a ++ b) = entsBytes a ++ entsBytes b := by
  induction a with
  | nil => simp [entsBytes]
  | cons e t ih => simp [entsBytes, ih]

theorem sliceL_zero (l : List Nat) (k : Nat) : sliceL l 0 k = l.take k := by
  simp [sliceL]

theorem sliceL_append_add (A B : List Nat) (m n w : Nat) (h : A.length = m) :
    sliceL (A ++ B) (m + n) w = sliceL B n w := by
  subst h
  simp [sliceL, List.drop_append]

/-- Well-formed index state: the mapped region is the byte image of the
entries `ps` followed by zero padding up to capacity `M`, the logical size
counts exactly `ps`, and the entries carry in-range `uint32`/`uint64`
values. -/
structure IdxGood (i : Index) (M : Nat) (ps : List (Nat × Nat)) : Prop where
  size_eq : i.size = entWidth * ps.length
  mmap_eq : i.mmap = entsBytes ps ++ List.replicate (M - entWidth * ps.length) 0
  cap : entWidth * ps.length ≤ M
  len_le : ps.length ≤ 2 ^ 32
  bounded : ∀ e ∈ ps, e.1 < 2 ^ 32 ∧ e.2 < 2 ^ 64

theorem IdxGood.mmap_length {i : Index} {M : Nat} {ps : List (Nat × Nat)}
    (h : IdxGood i M ps) : i.mmap.length = M := by
  have := h.cap
  rw [h.mmap_eq]
  simp [length_entsBytes]
  omega

theorem idx_fresh (c : Config) : IdxGood (newIndex [] c) c.maxIndexBytes [] := by
  constructor <;> simp [newIndex, entsBytes]

theorem entsBytes_fst_slice (ps : List (Nat × Nat)) (rest : List Nat) (k : Nat)
    (hk : k < ps.length) :
    sliceL (entsBytes ps ++ rest) (entWidth * k) offWidth =
      uint32ToBytes (ps.get ⟨k, hk⟩).1 := by
  induction ps generalizing k rest with
  | nil => simp at hk
  | cons e t ih =>
    cases k with
    | zero =>
      simp only [entsBytes, Nat.mul_zero, sliceL_zero, List.append_assoc,
        List.get]
      exact List.take_left' (length_uint32ToBytes e.1)
    | succ k =>
      have hrearr : entsBytes (e :: t) ++ rest =
          (uint32ToBytes e.1 ++ uint64ToBytes e.2) ++ (entsBytes t ++ rest) := by
        simp [entsBytes]
      have hlen : (uint32ToBytes e.1 ++ uint64ToBytes e.2).length = entWidth := by
        simp [length_uint32ToBytes, length_uint64ToBytes, entWidth, offWidth,
          posWidth]
      have hmul : entWidth * (k + 1) = entWidth + entWidth * k := by ring
      rw [hrearr, hmul, sliceL_append_add _ _ _ _ _ hlen]
      exact ih rest k (by simpa using hk)

theorem entsBytes_snd_slice (ps : List (Nat × Nat)) (rest : List Nat) (k : Nat)
    (hk : k < ps.length) :
    sliceL (entsBytes ps ++ rest) (entWidth * k + offWidth) posWidth =
      uint64ToBytes (ps.get ⟨k, hk⟩).2 := by
  induction ps generalizing k rest with
  | nil => simp at hk
  | cons e t ih =>
    cases k with
    | zero =>
      have hrearr : entsBytes (e :: t) ++ rest =
          uint32ToBytes e.1 ++ (uint64ToBytes e.2 ++ (entsBytes t ++ rest)) := by
        simp [entsBytes]
      have h0 : entWidth * 0 + offWidth = (uint32ToBytes e.1).length + 0 := by
        simp [length_uint32ToBytes, offWidth]
      rw [hrearr, h0, sliceL_append_add _ _ _ _ _ rfl, sliceL_zero]
      exact List.take_left' (length_uint64ToBytes e.2)
    | succ k =>
      have hrearr : entsBytes (e :: t) ++ rest =
          (uint32ToBytes e.1 ++ uint64ToBytes e.2) ++ (entsBytes t ++ rest) := by
        simp [entsBytes]
      have hlen : (uint32ToBytes e.1 ++ uint64ToBytes e.2).length = entWidth := by
        simp [length_uint32ToBytes, length_uint64ToBytes, entWidth, offWidth,
          posWidth]
      have hmul : entWidth * (k + 1) + offWidth =
          entWidth + (entWidth * k + offWidth) := by ring
      rw [hrearr, hmul, sliceL_append_add _ _ _ _ _ hlen]
      exact ih rest k (by simpa using hk)

theorem idx_write {i : Index} {M : Nat} {ps : List (Nat × Nat)}
    (h : IdxGood i M ps) (o p : Nat)
    (hc : entWidth * (ps.length + 1) ≤ M)
    (hl : ps.length + 1 ≤ 2 ^ 32)
    (ho : o < 2 ^ 32) (hp : p < 2 ^ 64) :
    ∃ i2, i.Write o p = .ok i2 ∧ IdxGood i2 M (ps ++ [(o, p)]) := by
  have hml : i.mmap.length = M := h.mmap_length
  have hsz := h.size_eq
  have hcap := h.cap
  rw [entWidth_eq] at hsz hcap hc
  have hnotmax : i.isMaxed = false := by
    simp only [Index.isMaxed, decide_eq_false_iff_not, not_lt, hml, hsz,
      entWidth_eq]
    omega
  have hlenv : (uint32ToBytes o ++ uint64ToBytes p).length = 12 := by
    simp [length_uint32ToBytes, length_uint64ToBytes]
  have hwrite : i.Write o p =
      .ok { mmap := overwrite i.mmap i.size (uint32ToBytes o ++ uint64ToBytes p),
            size := i.size + entWidth } := by
    simp only [Index.Write, hnotmax, Bool.false_eq_true, if_false]
  have htake : i.mmap.take i.size = entsBytes ps := by
    rw [h.mmap_eq, hsz, ← entWidth_eq, ← length_entsBytes ps]
    exact List.take_left _ _
  have hdrop : i.mmap.drop (i.size + (uint32ToBytes o ++ uint64ToBytes p).length) =
      List.replicate (M - entWidth * (ps.length + 1)) 0 := by
    rw [h.mmap_eq, hlenv]
    have hsz2 : i.size + 12 = (entsBytes ps).length + 12 := by
      rw [length_entsBytes, entWidth_eq]
      omega
    rw [hsz2, List.drop_append, List.drop_replicate, entWidth_eq]
    have harith : M - 12 * ps.length - 12 = M - 12 * (ps.length + 1) := by
      omega
    rw [harith]
  refine ⟨_, hwrite, ?_⟩
  constructor
  · simp only [List.length_append, List.length_singleton]
    rw [hsz, entWidth_eq]
    omega
  · show overwrite i.mmap i.size (uint32ToBytes o ++ uint64ToBytes p) = _
    rw [overwrite, htake, hdrop]
    simp only [entsBytes_append, entsBytes, List.append_nil, List.length_append,
      List.length_singleton, List.append_assoc]
  · simpa using hc
  · simpa using hl
  · intro e he
    rcases List.mem_append.1 he with h1 | h1
    · exact h.bounded e h1
    · simp at h1
      subst h1
      exact ⟨ho, hp⟩

theorem idx_read_at {i : Index} {M : Nat} {ps : List (Nat × Nat)}
    (h : IdxGood i M ps) (k : Nat) (hk : k < ps.length) :
    i.Read (k : Int) = .ok (ps.get ⟨k, hk⟩) := by
  have hk32 : k < 2 ^ 32 := lt_of_lt_of_le hk h.len_le
  have hsize := h.size_eq
  rw [entWidth_eq] at hsize
  have hsz : ¬ i.size = 0 := by
    rw [hsize]
    omega
  have hne : ¬ ((k : Int) = -1) := by omega
  have hout : uint32OfInt (k : Int) = k := by
    rw [uint32OfInt_ofNat, Nat.mod_eq_of_lt hk32]
  have hfit : ¬ (i.size < k * entWidth + entWidth) := by
    rw [hsize, entWidth_eq]
    omega
  have hbnd := h.bounded (ps.get ⟨k, hk⟩) (List.get_mem ps k hk)
  simp only [Index.Read, if_neg hsz, if_neg hne, hout, if_neg hfit]
  rw [h.mmap_eq]
  have hcomm : k * entWidth = entWidth * k := Nat.mul_comm _ _
  rw [hcomm, entsBytes_fst_slice ps _ k hk, entsBytes_snd_slice ps _ k hk,
    fromBytesBE_uint32ToBytes _ hbnd.1, fromBytesBE_uint64ToBytes _ hbnd.2]

theorem idx_read_last {i : Index} {M : Nat} {ps : List (Nat × Nat)}
    (h : IdxGood i M ps) (hne : 0 < ps.length) :
    i.Read (-1) = .ok (ps.get ⟨ps.length - 1, by omega⟩) := by
  have hsize := h.size_eq
  rw [entWidth_eq] at hsize
  have hsz : ¬ i.size = 0 := by
    rw [hsize]
    omega
  have hdiv : i.size / entWidth = ps.length := by
    rw [h.size_eq]
    exact Nat.mul_div_cancel_left _ (by rw [entWidth_eq]; omega)
  have hlt64 : ps.length < 2 ^ 64 :=
    lt_of_le_of_lt h.len_le (by norm_num)
  have hsub : sub64 ps.length 1 = ps.length - 1 :=
    sub64_eq_sub _ _ hne hlt64
  have hmod : (ps.length - 1) % 2 ^ 32 = ps.length - 1 :=
    Nat.mod_eq_of_lt (by have := h.len_le; omega)
  have hfit : ¬ (i.size < (ps.length - 1) * entWidth + entWidth) := by
    rw [hsize, entWidth_eq]
    omega
  have hbnd := h.bounded (ps.get ⟨ps.length - 1, by omega⟩)
    (List.get_mem ps (ps.length - 1) (by omega))
  simp only [Index.Read, if_neg hsz, hdiv, hsub, hmod, if_true]
  rw [if_neg hfit, h.mmap_eq]
  have hcomm : (ps.length - 1) * entWidth = entWidth * (ps.length - 1) :=
    Nat.mul_comm _ _
  rw [hcomm, entsBytes_fst_slice ps _ _ (by omega),
    entsBytes_snd_slice ps _ _ (by omega),
    fromBytesBE_uint32ToBytes _ hbnd.1, fromBytesBE_uint64ToBytes _ hbnd.2]

theorem idx_read_empty {i : Index} (hsz : i.size = 0) (inp : Int) :
    i.Read inp = .error .eof := by
  simp [Index.Read, hsz]

theorem idx_reopen {i : Index} {M : Nat} {ps : List (Nat × Nat)}
    (h : IdxGood i M ps) (c : Config) (hm : c.maxIndexBytes = M) :
    IdxGood (newIndex (closeIndex i) c) M ps := by
  have hclose : closeIndex i = entsBytes ps := by
    rw [closeIndex, h.mmap_eq, h.size_eq]
    exact List.take_left' (length_entsBytes ps)
  have hlen : (entsBytes ps).length = entWidth * ps.length := length_entsBytes ps
  constructor
  · simp [newIndex, hclose, hlen]
  · simp only [newIndex, hclose, hlen, hm]
    congr 1
    exact List.take_of_length_le (by rw [hlen]; exact h.cap)
  · exact h.cap
  · exact h.len_le
  · exact h.bounded

/-- Byte image of one store entry for payload `p`: the 8-byte big-endian
length of `p` followed by `p`, as produced by `store.Append`. -/
def storeEntry (p : List Nat) : List Nat := uint64ToBytes p.length ++ p

/-- Store bytes produced by appending the record values `vs` to a segment
with base offset `B`, starting at relative offset `j`: one `storeEntry` of
the marshalled record per value, with offsets stamped `B + j`, `B + j + 1`,
and so on. -/
def storeBytesAux (B j : Nat) : List (List Nat) → List Nat
  | [] => []
  | v :: t => storeEntry (marshalRecord ⟨v, B + j⟩) ++ storeBytesAux B (j + 1) t

/-- Store bytes of a fresh segment with base `B` after appending `vs`. -/
def storeBytes (B : Nat) (vs : List (List Nat)) : List Nat := storeBytesAux B 0 vs

/-- On-disk length of the store entry for a record value `v`:
8-byte length prefix plus the marshalled record (8-byte offset plus value). -/
def entryLen (v : List Nat) : Nat := lenWidth + (lenWidth + v.length)

/-- Total store length after appending the record values `vs`. -/
def storeLen : List (List Nat) → Nat
  | [] => 0
  | v :: t => entryLen v + storeLen t

/-- Index entries produced by appending the record values `vs`, starting at
relative offset `j` with the store already `pos` bytes long: entry `k` maps
relative offset `j + k` to the store position of the `k`-th new entry. -/
def idxEntriesAux (j pos : Nat) : List (List Nat) → List (Nat × Nat)
  | [] => []
  | v :: t => (j, pos) :: idxEntriesAux (j + 1) (pos + entryLen v) t

/-- Index entries of a fresh segment after appending `vs`. -/
def idxEntries (vs : List (List Nat)) : List (Nat × Nat) := idxEntriesAux 0 0 vs

theorem length_marshalRecord (r : Record) :
    (marshalRecord r).length = lenWidth + r.value.length := by
  simp [marshalRecord, length_uint64ToBytes, lenWidth]

theorem length_storeEntry (p : List Nat) :
    (storeEntry p).length = lenWidth + p.length := by
  simp [storeEntry, length_uint64ToBytes, lenWidth]

theorem length_storeBytesAux (B j : Nat) (vs : List (List Nat)) :
    (storeBytesAux B j vs).length = storeLen vs := by
  induction vs generalizing j with
  | nil => rfl
  | cons v t ih =>
    simp [storeBytesAux, storeLen, length_storeEntry, length_marshalRecord,
      entryLen, ih]

theorem storeLen_append (a b : List (List Nat)) :
    storeLen (a ++ b) = storeLen a + storeLen b := by
  induction a with
  | nil => simp [storeLen]
  | cons v t ih => simp [storeLen, ih]; omega

theorem unmarshal_marshal (r : Record) :
    unmarshalRecord (marshalRecord r) = .ok ⟨r.value, r.offset % 2 ^ 64⟩ := by
  have hlen : lenWidth ≤ (marshalRecord r).length := by
    rw [length_marshalRecord]
    omega
  have htake : (marshalRecord r).take lenWidth = uint64ToBytes r.offset :=
    List.take_left' (length_uint64ToBytes r.offset)
  have hdrop : (marshalRecord r).drop lenWidth = r.value :=
    List.drop_left' (length_uint64ToBytes r.offset)
  rw [unmarshalRecord, if_pos hlen, htake, hdrop, uint64ToBytes,
    fromBytesBE_toBytesBE]
  norm_num

theorem storeBytesAux_snoc (B j : Nat) (vs : List (List Nat)) (v : List Nat) :
    storeBytesAux B j (vs ++ [v]) =
      storeBytesAux B j vs ++ storeEntry (marshalRecord ⟨v, B + j + vs.length⟩) := by
  induction vs generalizing j with
  | nil => simp [storeBytesAux]
  | cons w t ih =>
    simp only [List.cons_append, storeBytesAux, List.length_cons, List.append_eq]
    rw [ih (j + 1)]
    have h1 : B + (j + 1) + t.length = B + j + (t.length + 1) := by omega
    rw [h1]
    simp [List.append_assoc]

theorem idxEntriesAux_snoc (j pos : Nat) (vs : List (List Nat)) (v : List Nat) :
    idxEntriesAux j pos (vs ++ [v]) =
      idxEntriesAux j pos vs ++ [(j + vs.length, pos + storeLen vs)] := by
  induction vs generalizing j pos with
  | nil => simp [idxEntriesAux, storeLen]
  | cons w t ih =>
    simp only [List.cons_append, idxEntriesAux, List.length_cons, storeLen,
      List.append_eq]
    rw [ih (j + 1) (pos + entryLen w)]
    have h1 : j + 1 + t.length = j + (t.length + 1) := by omega
    have h2 : pos + entryLen w + storeLen t = pos + (entryLen w + storeLen t) := by
      omega
    rw [h1, h2]

theorem length_idxEntriesAux (j pos : Nat) (vs : List (List Nat)) :
    (idxEntriesAux j pos vs).length = vs.length := by
  induction vs generalizing j pos with
  | nil => rfl
  | cons v t ih => simp [idxEntriesAux, ih]

theorem length_idxEntries (vs : List (List Nat)) :
    (idxEntries vs).length = vs.length :=
  length_idxEntriesAux 0 0 vs

theorem idxEntriesAux_get (vs : List (List Nat)) (j pos k : Nat)
    (hk : k < vs.length) :
    (idxEntriesAux j pos vs).get ⟨k, by rw [length_idxEntriesAux]; exact hk⟩ =
      (j + k, pos + storeLen (vs.take k)) := by
  induction vs generalizing j pos k with
  | nil => simp at hk
  | cons v t ih =>
    cases k with
    | zero => simp [idxEntriesAux, storeLen]
    | succ k =>
      have hk2 : k < t.length := by simpa using hk
      simp only [idxEntriesAux, List.take, storeLen, List.get]
      rw [ih (j + 1) (pos + entryLen v) k hk2]
      simp only [Prod.mk.injEq]
      omega

theorem storeLen_take_le (vs : List (List Nat)) (k : Nat) :
    storeLen (vs.take k) ≤ storeLen vs := by
  conv_rhs => rw [← List.take_append_drop k vs]
  rw [storeLen_append]
  omega

theorem storeBytesAux_decomp (vs : List (List Nat)) (k : Nat)
    (hk : k < vs.length) (B j : Nat) :
    storeBytesAux B j vs =
      storeBytesAux B j (vs.take k) ++
        (storeEntry (marshalRecord ⟨vs.get ⟨k, hk⟩, B + (j + k)⟩) ++
          storeBytesAux B (j + k + 1) (vs.drop (k + 1))) := by
  induction vs generalizing k j with
  | nil => simp at hk
  | cons v t ih =>
    cases k with
    | zero => simp [storeBytesAux]
    | succ k =>
      have hk2 : k < t.length := by simpa using hk
      simp only [storeBytesAux, List.take, List.drop, List.get,
        List.append_assoc]
      rw [ih k hk2 (j + 1)]
      have h1 : j + 1 + k = j + (k + 1) := by omega
      rw [h1]

theorem store_read_entry (st : Store) (pre p suf : List Nat)
    (hc : st.contents = pre ++ (uint64ToBytes p.length ++ p) ++ suf)
    (hp : p.length < 2 ^ 64) :
    st.Read pre.length = .ok p := by
  have hlen : st.contents.length =
      pre.length + (lenWidth + p.length) + suf.length := by
    rw [hc]
    simp [length_uint64ToBytes, lenWidth]
    omega
  have h1 : ¬ (st.contents.length < pre.length + lenWidth) := by
    rw [hlen]
    omega
  have hdrop1 : st.contents.drop pre.length =
      (uint64ToBytes p.length ++ p) ++ suf := by
    rw [hc, List.append_assoc]
    exact List.drop_left _ _
  have hslice1 : sliceL st.contents pre.length lenWidth = uint64ToBytes p.length := by
    rw [sliceL, hdrop1, List.append_assoc]
    exact List.take_left' (length_uint64ToBytes p.length)
  have hdec : fromBytesBE (uint64ToBytes p.length) = p.length :=
    fromBytesBE_uint64ToBytes _ hp
  have h2 : ¬ (st.contents.length < pre.length + lenWidth + p.length) := by
    rw [hlen]
    omega
  have hdrop2 : st.contents.drop (pre.length + lenWidth) = p ++ suf := by
    have hre : st.contents = (pre ++ uint64ToBytes p.length) ++ (p ++ suf) := by
      rw [hc]
      simp [List.append_assoc]
    rw [hre]
    exact List.drop_left' (by simp [length_uint64ToBytes, lenWidth])
  have hslice2 : sliceL st.contents (pre.length + lenWidth) p.length = p := by
    rw [sliceL, hdrop2]
    exact List.take_left' rfl
  rw [Store.Read]
  simp only [if_neg h1, hslice1, hdec, if_neg h2, hslice2]

/-- Well-formed segment state: the state reached from a fresh segment with
base offset `B` and configuration `c` after successfully appending records
with values `vs` (in order). -/
structure GoodSeg (s : Segment) (B : Nat) (c : Config) (vs : List (List Nat)) :
    Prop where
  base_eq : s.baseOffset = B
  cfg_eq : s.config = c
  next_eq : s.nextOffset = B + vs.length
  no_wrap : B + vs.length < 2 ^ 64
  count_le : vs.length ≤ 2 ^ 32
  idx : IdxGood s.index c.maxIndexBytes (idxEntries vs)
  st_contents : s.store.contents = storeBytes B vs
  st_size : s.store.size = storeLen vs
  st_small : storeLen vs < 2 ^ 64

theorem good_fresh (B : Nat) (c : Config) (hB : B < 2 ^ 64) :
    GoodSeg (newSegment [] [] B c) B c [] := by
  have hread : (newIndex [] c).Read (-1) = .error .eof :=
    idx_read_empty (by simp [newIndex]) (-1)
  constructor
  · rfl
  · rfl
  · show (match (newIndex [] c).Read (-1) with
      | .error _ => B
      | .ok (off, _) => w64 (B + off + 1)) = B + ([] : List (List Nat)).length
    rw [hread]
    simp
  · simpa using hB
  · simp
  · exact idx_fresh c
  · simp [newSegment, newStore, Store.contents, storeBytes, storeBytesAux]
  · simp [newSegment, newStore, storeLen]
  · simp [storeLen]

theorem storeLen_snoc (vs : List (List Nat)) (v : List Nat) :
    storeLen (vs ++ [v]) = storeLen vs + entryLen v := by
  rw [storeLen_append]
  simp [storeLen]

theorem good_append {s : Segment} {B : Nat} {c : Config} {vs : List (List Nat)}
    (h : GoodSeg s B c vs) (r : Record)
    (hcap : entWidth * (vs.length + 1) ≤ c.maxIndexBytes)
    (hwrap : B + vs.length + 1 < 2 ^ 64)
    (hcount : vs.length + 1 ≤ 2 ^ 32)
    (hsmall : storeLen (vs ++ [r.value]) < 2 ^ 64) :
    ∃ s2, s.Append r = (.ok (B + vs.length), s2) ∧
      GoodSeg s2 B c (vs ++ [r.value]) := by
  have hn32 : vs.length < 2 ^ 32 := by omega
  have hsn : storeLen (vs ++ [r.value]) = storeLen vs + entryLen r.value :=
    storeLen_snoc vs r.value
  have hpos64 : storeLen vs < 2 ^ 64 := h.st_small
  have hrel : sub64 s.nextOffset s.baseOffset % 2 ^ 32 = vs.length := by
    rw [h.next_eq, h.base_eq,
      sub64_eq_sub _ _ (Nat.le_add_right _ _) (by omega)]
    have hd : B + vs.length - B = vs.length := by omega
    rw [hd, Nat.mod_eq_of_lt hn32]
  obtain ⟨i2, hwok, hgood2⟩ :=
    idx_write h.idx vs.length (s.store.size)
      (by rw [length_idxEntries]; exact hcap)
      (by rw [length_idxEntries]; exact hcount)
      hn32 (by rw [h.st_size]; exact hpos64)
  have hents : idxEntries (vs ++ [r.value]) =
      idxEntries vs ++ [(vs.length, storeLen vs)] := by
    rw [idxEntries, idxEntriesAux_snoc]
    simp [idxEntries]
  have hmarsh : marshalRecord { r with offset := s.nextOffset } =
      marshalRecord ⟨r.value, B + vs.length⟩ := by
    rw [h.next_eq]
  have hplen : (marshalRecord ⟨r.value, B + vs.length⟩).length =
      lenWidth + r.value.length := length_marshalRecord _
  have happ : s.Append r = (.ok (B + vs.length),
      { store :=
          { file := s.store.file,
            buf := s.store.buf ++
              uint64ToBytes (marshalRecord ⟨r.value, B + vs.length⟩).length ++
              marshalRecord ⟨r.value, B + vs.length⟩,
            size := w64 (s.store.size +
              w64 (lenWidth + (marshalRecord ⟨r.value, B + vs.length⟩).length)) },
        index := i2,
        baseOffset := s.baseOffset,
        nextOffset := w64 (s.nextOffset + 1),
        config := s.config }) := by
    rw [Segment.Append]
    simp only [Store.Append, hmarsh, hrel]
    rw [hwok, h.next_eq]
  refine ⟨_, happ, ?_⟩
  · constructor
    · exact h.base_eq
    · exact h.cfg_eq
    · show w64 (s.nextOffset + 1) = B + (vs ++ [r.value]).length
      rw [h.next_eq, w64, Nat.mod_eq_of_lt (by omega)]
      simp
      omega
    · simpa using hwrap
    · simpa using hcount
    · show IdxGood i2 c.maxIndexBytes (idxEntries (vs ++ [r.value]))
      rw [hents]
      rw [h.st_size] at hgood2
      exact hgood2
    · show s.store.file ++ (s.store.buf ++ uint64ToBytes
          (marshalRecord ⟨r.value, B + vs.length⟩).length ++
          marshalRecord ⟨r.value, B + vs.length⟩) = storeBytes B (vs ++ [r.value])
      have hc2 : s.store.file ++ s.store.buf = storeBytes B vs := h.st_contents
      rw [storeBytes, storeBytesAux_snoc]
      simp only [Nat.add_zero, Nat.zero_add, storeEntry, ← List.append_assoc, hc2,
        storeBytes]
    · show w64 (s.store.size + w64 (lenWidth + (marshalRecord
          ⟨r.value, B + vs.length⟩).length)) = storeLen (vs ++ [r.value])
      rw [hplen, h.st_size]
      have he : lenWidth + (lenWidth + r.value.length) = entryLen r.value := rfl
      rw [he]
      have h1 : w64 (entryLen r.value) = entryLen r.value := by
        rw [w64]
        exact Nat.mod_eq_of_lt (by omega)
      rw [h1, w64, Nat.mod_eq_of_lt (by omega)]
      omega
    · exact hsmall

theorem idxEntries_get (vs : List (List Nat)) (k : Nat) (hk : k < vs.length)
    (hk2 : k < (idxEntries vs).length) :
    (idxEntries vs).get ⟨k, hk2⟩ = (k, storeLen (vs.take k)) := by
  have h0 := idxEntriesAux_get vs 0 0 k hk
  simpa [idxEntries] using h0

theorem good_read {s : Segment} {B : Nat} {c : Config} {vs : List (List Nat)}
    (h : GoodSeg s B c vs) (k : Nat) (hk : k < vs.length) :
    s.Read (B + k) = .ok ⟨vs.get ⟨k, hk⟩, B + k⟩ := by
  have hBk : B + k < 2 ^ 64 := by
    have := h.no_wrap
    omega
  have hk63 : k < 2 ^ 63 := by
    have := h.count_le
    omega
  have hrel : sub64 (B + k) s.baseOffset = k := by
    rw [h.base_eq, sub64_eq_sub _ _ (Nat.le_add_right _ _) hBk]
    omega
  have hkidx : k < (idxEntries vs).length := by
    rw [length_idxEntries]
    exact hk
  have hidx : s.index.Read ((k : Nat) : Int) =
      .ok ((idxEntries vs).get ⟨k, hkidx⟩) := idx_read_at h.idx k hkidx
  have hget : (idxEntries vs).get ⟨k, hkidx⟩ = (k, storeLen (vs.take k)) :=
    idxEntries_get vs k hk hkidx
  have hdec := storeBytesAux_decomp vs k hk B 0
  have hplen : (marshalRecord ⟨vs.get ⟨k, hk⟩, B + (0 + k)⟩).length =
      lenWidth + (vs.get ⟨k, hk⟩).length := length_marshalRecord _
  have hsmall2 : (vs.get ⟨k, hk⟩).length + lenWidth < 2 ^ 64 := by
    have hlen := congrArg List.length hdec
    rw [length_storeBytesAux] at hlen
    simp only [List.length_append, length_storeBytesAux, length_storeEntry,
      hplen] at hlen
    have := h.st_small
    omega
  have hc : s.store.contents =
      storeBytesAux B 0 (vs.take k) ++
        (uint64ToBytes (marshalRecord ⟨vs.get ⟨k, hk⟩, B + (0 + k)⟩).length ++
          marshalRecord ⟨vs.get ⟨k, hk⟩, B + (0 + k)⟩) ++
        storeBytesAux B (0 + k + 1) (vs.drop (k + 1)) := by
    rw [h.st_contents, storeBytes, hdec, storeEntry]
    simp [List.append_assoc]
  have hread := store_read_entry s.store _ _ _ hc
    (by rw [hplen]; omega)
  rw [length_storeBytesAux] at hread
  rw [Segment.Read, hrel, int64OfUInt64_ofNat k hk63]
  simp only [hidx, hget, hread, unmarshal_marshal, Nat.zero_add,
    Nat.mod_eq_of_lt hBk]

theorem good_reopen {s : Segment} {B : Nat} {c : Config} {vs : List (List Nat)}
    (h : GoodSeg s B c vs) :
    GoodSeg (newSegment (closeStore s.store) (closeIndex s.index) B c) B c vs := by
  have hidx2 : IdxGood (newIndex (closeIndex s.index) c) c.maxIndexBytes
      (idxEntries vs) := idx_reopen h.idx c rfl
  have hnext : (match (newIndex (closeIndex s.index) c).Read (-1) with
      | .error _ => B
      | .ok (off, _) => w64 (B + off + 1)) = B + vs.length := by
    rcases Nat.eq_zero_or_pos vs.length with hvs | hvs
    · have hvs0 : vs = [] := List.length_eq_zero.1 hvs
      subst hvs0
      have hsz0 : s.index.size = 0 := by
        rw [h.idx.size_eq]
        rfl
      have hclose0 : closeIndex s.index = [] := by
        rw [closeIndex, hsz0]
        simp
      rw [hclose0, idx_read_empty (by rfl) (-1)]
      simp
    · have hlenp : 0 < (idxEntries vs).length := by
        rw [length_idxEntries]
        exact hvs
      have hkv : (idxEntries vs).length - 1 < vs.length := by
        rw [length_idxEntries]
        omega
      have hget : (idxEntries vs).get ⟨(idxEntries vs).length - 1, by omega⟩ =
          ((idxEntries vs).length - 1,
            storeLen (vs.take ((idxEntries vs).length - 1))) :=
        idxEntries_get vs _ hkv (by omega)
      rw [idx_read_last hidx2 hlenp, hget]
      show w64 (B + ((idxEntries vs).length - 1) + 1) = B + vs.length
      have hle := length_idxEntries vs
      have harith : B + ((idxEntries vs).length - 1) + 1 = B + vs.length := by
        omega
      rw [harith, w64, Nat.mod_eq_of_lt h.no_wrap]
  constructor
  · rfl
  · rfl
  · exact hnext
  · exact h.no_wrap
  · exact h.count_le
  · exact hidx2
  · show closeStore s.store ++ [] = storeBytes B vs
    rw [List.append_nil]
    exact h.st_contents
  · show (closeStore s.store).length = storeLen vs
    rw [closeStore, h.st_contents, storeBytes, length_storeBytesAux]
  · exact h.st_small

/-- Sequential `segment.Append` calls: applies `Segment.Append` to each
record in turn, collecting the per-call results and the final state. -/
def appendAll (s : Segment) : List Record → List (Except LogErr Nat) × Segment
  | [] => ([], s)
  | r :: rs =>
    let p := s.Append r
    let q := appendAll p.2 rs
    (p.1 :: q.1, q.2)

/-- Outcomes of the fallible sub-operations of one `segment.Append` call
that the pure embedding cannot make fail by itself: whether `proto.Marshal`
succeeds, whether the buffered store write succeeds, and the partial bytes
the buffered writer may retain when the store write fails mid-way. -/
structure AppendEnv where
  marshalOk : Bool
  storeOk : Bool
  junk : List Nat
deriving DecidableEq, Repr

/-- `segment.Append` (segment.go) with its three failure exits made
explicit, following the source control flow: a marshal failure returns
before touching the store; a store write failure returns before touching
the index, leaving whatever partial bytes reached the buffered writer and
leaving `size` unchanged (the source increments it only after a successful
write); an index write failure returns with the store bytes already
appended.  `nextOffset` is incremented only on the all-success path.  With
`marshalOk = storeOk = true` this is exactly `Segment.Append`. -/
def Segment.AppendFull (env : AppendEnv) (s : Segment) (record : Record) :
    Except LogErr Nat × Segment :=
  let cur := s.nextOffset
  if env.marshalOk = false then (.error .marshalFail, s)
  else
    let p := marshalRecord { record with offset := cur }
    match s.store.Append p with
    | (_, pos, st) =>
      if env.storeOk = false then
        (.error .ioFail,
         { s with store := { s.store with buf := s.store.buf ++ env.junk } })
      else
        match s.index.Write (sub64 s.nextOffset s.baseOffset % 2 ^ 32) pos with
        | .error e => (.error e, { s with store := st })
        | .ok ix =>
          (.ok cur,
           { s with
              store := st, index := ix, nextOffset := w64 (s.nextOffset + 1) })

theorem appendFull_ok_offset (env : AppendEnv) (s : Segment) (r : Record)
    (o : Nat) (s2 : Segment)
    (h : Segment.AppendFull env s r = (.ok o, s2)) : o = s.nextOffset := by
  rw [Segment.AppendFull] at h
  by_cases hm : env.marshalOk = false
  · rw [if_pos hm] at h
    simp at h
  · rw [if_neg hm] at h
    simp only [Store.Append] at h
    by_cases hs : env.storeOk = false
    · rw [if_pos hs] at h
      simp at h
    · rw [if_neg hs] at h
      rcases hw : s.index.Write (sub64 s.nextOffset s.baseOffset % 2 ^ 32)
          s.store.size with e | ix
      · rw [hw] at h
        simp at h
      · rw [hw] at h
        simp only [Prod.mk.injEq, Except.ok.injEq] at h
        exact h.1.symm

theorem appendAll_good {s : Segment} {B : Nat} {c : Config}
    {vs : List (List Nat)} (h : GoodSeg s B c vs) (rs : List Record)
    (hcap : entWidth * (vs.length + rs.length) ≤ c.maxIndexBytes)
    (hwrap : B + vs.length + rs.length < 2 ^ 64)
    (hcount : vs.length + rs.length ≤ 2 ^ 32)
    (hsmall : storeLen (vs ++ rs.map Record.value) < 2 ^ 64) :
    ∃ s2, appendAll s rs =
      ((List.range rs.length).map (fun i => Except.ok (B + vs.length + i)), s2)
      ∧ GoodSeg s2 B c (vs ++ rs.map Record.value) := by
  induction rs generalizing s vs with
  | nil =>
    refine ⟨s, ?_, ?_⟩
    · simp [appendAll]
    · simpa using h
  | cons r rs ih =>
    have e1 : storeLen (vs ++ [r.value]) = storeLen vs + entryLen r.value :=
      storeLen_snoc vs r.value
    have e2 : storeLen (vs ++ (r :: rs).map Record.value) =
        storeLen vs + (entryLen r.value + storeLen (rs.map Record.value)) := by
      rw [List.map_cons, storeLen_append]
      rfl
    have e3 : storeLen ((vs ++ [r.value]) ++ rs.map Record.value) =
        storeLen (vs ++ (r :: rs).map Record.value) := by
      rw [List.append_assoc, List.singleton_append, List.map_cons]
    have hent := entWidth_eq
    obtain ⟨s2, happ, hgood2⟩ := good_append h r
      (by rw [entWidth_eq] at hcap ⊢; simp only [List.length_cons] at hcap; omega)
      (by simp only [List.length_cons] at hwrap; omega)
      (by simp only [List.length_cons] at hcount; omega)
      (by rw [e1]; rw [e2] at hsmall; omega)
    obtain ⟨s3, happ3, hgood3⟩ := ih hgood2
      (by rw [entWidth_eq] at hcap ⊢
          simp only [List.length_append, List.length_singleton,
            List.length_cons, List.length_nil] at hcap ⊢
          omega)
      (by simp only [List.length_append, List.length_singleton,
            List.length_cons, List.length_nil] at hwrap ⊢
          omega)
      (by simp only [List.length_append, List.length_singleton,
            List.length_cons, List.length_nil] at hcount ⊢
          omega)
      (by rw [e3]; exact hsmall)
    refine ⟨s3, ?_, ?_⟩
    · show ((s.Append r).1 :: (appendAll (s.Append r).2 rs).1,
        (appendAll (s.Append r).2 rs).2) = _
      rw [happ]
      simp only [happ3]
      simp only [List.length_cons]
      rw [List.range_succ_eq_map, List.map_cons, List.map_map]
      simp only [Prod.mk.injEq, List.cons.injEq]
      refine ⟨⟨by simp, ?_⟩, trivial⟩
      apply List.map_congr_left
      intro a ha
      simp only [Function.comp_apply, Except.ok.injEq,
        List.length_append, List.length_singleton]
      omega
    · rw [List.append_assoc, List.singleton_append, ← List.map_cons] at hgood3
      exact hgood3

theorem sliceL_append_left (A B : List Nat) (pos k : Nat)
    (h : pos + k ≤ A.length) :
    sliceL (A ++ B) pos k = sliceL A pos k := by
  rw [sliceL, sliceL, List.drop_append_eq_append_drop]
  rw [List.take_append_of_le_length]
  rw [List.length_drop]
  omega

theorem idx_write_maxed (i : Index) (h : i.isMaxed = true) (o p : Nat) :
    i.Write o p = .error .eof := by
  rw [Index.Write, if_pos h]

theorem idx_write_ok_size (i : Index) (o p : Nat) (i2 : Index)
    (h : i.Write o p = .ok i2) : i2.size = i.size + entWidth := by
  rw [Index.Write] at h
  by_cases hm : i.isMaxed
  · rw [if_pos hm] at h
    simp at h
  · rw [if_neg hm] at h
    simp only [Except.ok.injEq] at h
    rw [← h]

theorem newSegment_fresh_next (sf : List Nat) (B : Nat) (c : Config) :
    (newSegment sf [] B c).nextOffset = B := by
  have hread : (newIndex [] c).Read (-1) = .error .eof := idx_read_empty rfl _
  show (match (newIndex [] c).Read (-1) with
    | .error _ => B
    | .ok (off, _) => w64 (B + off + 1)) = B
  rw [hread]

/-- Most-recent-entry recovery: a segment constructed over an index file of
`N` 12-byte entries whose last entry stores relative offset `N - 1` recovers
`nextOffset = B + N`. -/
theorem newSegment_recover (sf f : List Nat) (B N : Nat) (c : Config)
    (hlen : f.length = entWidth * N) (hN : 1 ≤ N) (hN32 : N ≤ 2 ^ 32)
    (hcap : entWidth * N ≤ c.maxIndexBytes)
    (hlast : fromBytesBE (sliceL f ((N - 1) * entWidth) offWidth) = N - 1)
    (hwrap : B + N < 2 ^ 64) :
    (newSegment sf f B c).nextOffset = B + N := by
  have hent := entWidth_eq
  have hoff : offWidth = 4 := rfl
  have hsz : (newIndex f c).size = entWidth * N := by
    simp [newIndex, hlen]
  have hsz0 : ¬ (newIndex f c).size = 0 := by
    rw [hsz, hent]
    omega
  have hdiv : (newIndex f c).size / entWidth = N := by
    rw [hsz]
    exact Nat.mul_div_cancel_left _ (by rw [hent]; omega)
  have hsub : sub64 N 1 = N - 1 :=
    sub64_eq_sub _ _ hN (by omega)
  have hmod : (N - 1) % 2 ^ 32 = N - 1 := Nat.mod_eq_of_lt (by omega)
  have hfit : ¬ ((newIndex f c).size < (N - 1) * entWidth + entWidth) := by
    rw [hsz, hent]
    omega
  have hmmap : (newIndex f c).mmap =
      f ++ List.replicate (c.maxIndexBytes - f.length) 0 := by
    show f.take c.maxIndexBytes ++ _ = _
    rw [List.take_of_length_le (by omega)]
  have hbound : (N - 1) * entWidth + offWidth ≤ f.length := by
    rw [hent, hoff, hlen, hent]
    omega
  have hread : (newIndex f c).Read (-1) = .ok (N - 1,
      fromBytesBE (sliceL (f ++ List.replicate (c.maxIndexBytes - f.length) 0)
        ((N - 1) * entWidth + offWidth) posWidth)) := by
    simp only [Index.Read, if_neg hsz0, hdiv, hsub, hmod, if_true]
    rw [if_neg hfit, hmmap, sliceL_append_left f _ ((N - 1) * entWidth) offWidth
      hbound, hlast]
  show (match (newIndex f c).Read (-1) with
    | .error _ => B
    | .ok (off, _) => w64 (B + off + 1)) = B + N
  rw [hread]
  show w64 (B + (N - 1) + 1) = B + N
  have harith : B + (N - 1) + 1 = B + N := by omega
  rw [harith, w64, Nat.mod_eq_of_lt hwrap]

/-- The `(relativeOffset, position)` pair stored at entry number `k` of an
index's mapped region: the decoded 4-byte and 8-byte big-endian fields at
byte offset `k * entWidth`. -/
def entryAt (i : Index) (k : Nat) : Nat × Nat :=
  (fromBytesBE (sliceL i.mmap (k * entWidth) offWidth),
   fromBytesBE (sliceL i.mmap (k * entWidth + offWidth) posWidth))

/-- Claim C1 (segment round-trip): appending a record `r` to a fresh segment
(empty store and index files, base offset `B`) succeeds, returns offset `B`,
and reading that offset back yields a record whose value equals `r`'s value
and whose offset equals the offset `Append` returned. -/
theorem c1_segment_round_trip (B : Nat) (c : Config) (r : Record)
    (hB : B + 1 < 2 ^ 64) (hcap : entWidth ≤ c.maxIndexBytes)
    (hval : entryLen r.value < 2 ^ 64) :
    ∃ s2, (newSegment [] [] B c).Append r = (.ok B, s2) ∧
      s2.Read B = .ok { value := r.value, offset := B } := by
  have h0 : GoodSeg (newSegment [] [] B c) B c [] := good_fresh B c (by omega)
  obtain ⟨s2, happ, hgood⟩ := good_append h0 r
    (by simpa using hcap)
    (by simpa using hB)
    (by norm_num)
    (by simpa [storeLen] using hval)
  refine ⟨s2, by simpa using happ, ?_⟩
  have hread := good_read hgood 0 (by simp)
  simpa using hread

theorem c1_segment_round_trip_witness :
    ∃ s2, (newSegment [] [] 5 ⟨1024, 24⟩).Append ⟨[1, 2], 9⟩ = (.ok 5, s2) ∧
      s2.Read 5 = .ok { value := [1, 2], offset := 5 } :=
  c1_segment_round_trip 5 ⟨1024, 24⟩ ⟨[1, 2], 9⟩ (by decide) (by decide)
    (by decide)

/-- Segment obtained by appending one record with value `[7]` to a fresh
segment with base offset 1 (store capacity 1024, index capacity 24). -/
def c2seg : Segment :=
  ((newSegment [] [] 1 { maxStoreBytes := 1024, maxIndexBytes := 24 }).Append
    { value := [7], offset := 0 }).2

/-- Claim C2, counterexample: on a reachable segment with base offset 1 and
one appended record, reading offset `0 < baseOffset` does NOT fail — the
`uint64` wrap-around in `int64(off - baseOffset)` yields `-1`, which
`index.Read` treats as "most recent entry", so the read succeeds and
returns the record stored at the segment's only entry. -/
theorem c2_out_of_range_counterexample :
    c2seg.baseOffset = 1 ∧ c2seg.nextOffset = 2 ∧
      c2seg.Read 0 = .ok { value := [7], offset := 1 } := by decide

/-- Claim C2 amended: on a reachable segment (index size `entWidth * n`,
`nextOffset = baseOffset + n`), `Read(off)` is guaranteed to fail with the
end-of-data signal for `nextOffset ≤ off < baseOffset + 2^32`; offsets
below `baseOffset` (which wrap to `-1` or to a large relative value) or at
`baseOffset + 2^32` and beyond (which truncate mod `2^32`) can instead
alias an existing entry and return its record. -/
theorem c2_out_of_range_read (s : Segment) (n off : Nat)
    (hsz : s.index.size = entWidth * n)
    (hnext : s.nextOffset = s.baseOffset + n)
    (hlo : s.nextOffset ≤ off)
    (hhi : off < s.baseOffset + 2 ^ 32)
    (h64 : off < 2 ^ 64) :
    s.Read off = .error .eof := by
  have hent := entWidth_eq
  have hbase : s.baseOffset ≤ off := by omega
  have hsub : sub64 off s.baseOffset = off - s.baseOffset :=
    sub64_eq_sub _ _ hbase h64
  have hrel32 : off - s.baseOffset < 2 ^ 32 := by omega
  have hint : int64OfUInt64 (off - s.baseOffset) =
      ((off - s.baseOffset : Nat) : Int) :=
    int64OfUInt64_ofNat _ (by omega)
  have hidx : s.index.Read (((off - s.baseOffset) : Nat) : Int) =
      .error .eof := by
    by_cases h0 : s.index.size = 0
    · exact idx_read_empty h0 _
    · have hne : ¬ (((off - s.baseOffset : Nat) : Int) = -1) := by omega
      have hout : uint32OfInt ((off - s.baseOffset : Nat) : Int) =
          off - s.baseOffset := by
        rw [uint32OfInt_ofNat, Nat.mod_eq_of_lt hrel32]
      have hfit : s.index.size < (off - s.baseOffset) * entWidth + entWidth := by
        rw [hsz, hent]
        omega
      simp only [Index.Read, if_neg h0, if_neg hne, hout, if_pos hfit]
  rw [Segment.Read, hsub, hint]
  simp only [hidx]

theorem c2_out_of_range_read_witness : c2seg.Read 2 = .error .eof :=
  c2_out_of_range_read c2seg 1 2 (by decide) (by decide) (by decide)
    (by decide) (by decide)

/-- Index holding exactly the two entries `(5, 6)` and `(7, 8)`. -/
def c8idx : Index :=
  { mmap := uint32ToBytes 5 ++ uint64ToBytes 6 ++ uint32ToBytes 7 ++
      uint64ToBytes 8,
    size := 24 }

/-- Claim C8, counterexample: on a two-entry index, `Read(2^32)` requests an
entry number at/beyond `S / 12 = 2`, so the claim demands an end-of-data
failure — but `uint32(in)` truncates `2^32` to `0` and the read succeeds,
returning entry 0's pair. -/
theorem c8_truncation_counterexample :
    c8idx.size / entWidth = 2 ∧ ¬ c8idx.size = 0 ∧
      c8idx.Read (2 ^ 32) = .ok (5, 6) := by decide

/-- Claim C8 amended: `index.Read` semantics for entry numbers below `2^32`
(the range representable after the `uint32(in)` narrowing): reads fail with
end-of-data when the index is empty or the entry number lies at/beyond
`size / entWidth`; in-range entry numbers return the stored pair; `-1`
returns the entry numbered `size / entWidth - 1` provided that number is
itself below `2^32`.  Entry numbers at/beyond `2^32` are truncated modulo
`2^32` and read the truncated entry instead. -/
theorem c8_index_read_semantics :
    (∀ (i : Index) (inp : Int), i.size = 0 → i.Read inp = .error .eof) ∧
    (∀ (i : Index) (n : Nat), n < 2 ^ 32 → n * entWidth + entWidth ≤ i.size →
      i.Read (n : Int) = .ok (entryAt i n)) ∧
    (∀ (i : Index) (n : Nat), n < 2 ^ 32 → i.size / entWidth ≤ n →
      i.Read (n : Int) = .error .eof) ∧
    (∀ (i : Index), entWidth ≤ i.size → i.size / entWidth ≤ 2 ^ 32 →
      i.Read (-1) = .ok (entryAt i (i.size / entWidth - 1))) := by
  have hent := entWidth_eq
  refine ⟨?_, ?_, ?_, ?_⟩
  · intro i inp h0
    exact idx_read_empty h0 inp
  · intro i n hn32 hfit
    rw [hent] at hfit
    have h0 : ¬ i.size = 0 := by omega
    have hne : ¬ ((n : Int) = -1) := by omega
    have hout : uint32OfInt (n : Int) = n := by
      rw [uint32OfInt_ofNat, Nat.mod_eq_of_lt hn32]
    have hfit2 : ¬ (i.size < n * entWidth + entWidth) := by
      rw [hent]
      omega
    simp only [Index.Read, if_neg h0, if_neg hne, hout, if_neg hfit2]
    rfl
  · intro i n hn32 hge
    by_cases h0 : i.size = 0
    · exact idx_read_empty h0 _
    · have hq : i.size / entWidth = i.size / 12 := by rw [hent]
      rw [hq] at hge
      have hne : ¬ ((n : Int) = -1) := by omega
      have hout : uint32OfInt (n : Int) = n := by
        rw [uint32OfInt_ofNat, Nat.mod_eq_of_lt hn32]
      have hfit : i.size < n * entWidth + entWidth := by
        rw [hent]
        omega
      simp only [Index.Read, if_neg h0, if_neg hne, hout, if_pos hfit]
  · intro i hsz hdiv32
    have hq : i.size / entWidth = i.size / 12 := by rw [hent]
    rw [hq] at hdiv32
    have hsz12 : 12 ≤ i.size := by rw [hent] at hsz; omega
    have h0 : ¬ i.size = 0 := by omega
    have h1 : 1 ≤ i.size / entWidth := by rw [hq]; omega
    have hlt64 : i.size / entWidth < 2 ^ 64 := by rw [hq]; omega
    have hsub : sub64 (i.size / entWidth) 1 = i.size / entWidth - 1 :=
      sub64_eq_sub _ _ h1 hlt64
    have hmod : (i.size / entWidth - 1) % 2 ^ 32 = i.size / entWidth - 1 :=
      Nat.mod_eq_of_lt (by rw [hq]; omega)
    have hfit : ¬ (i.size < (i.size / entWidth - 1) * entWidth + entWidth) := by
      rw [hq, hent]
      omega
    simp only [Index.Read, if_neg h0, hsub, hmod, if_true]
    rw [if_neg hfit]
    rfl

theorem c8_index_read_semantics_witness :
    c8idx.Read 5 = .error .eof ∧
    c8idx.Read 1 = .ok (entryAt c8idx 1) ∧
    c8idx.Read (-1) = .ok (entryAt c8idx (c8idx.size / entWidth - 1)) ∧
    (newIndex [] ⟨1024, 24⟩).Read 0 = .error .eof :=
  ⟨c8_index_read_semantics.2.2.1 c8idx 5 (by decide) (by decide),
   c8_index_read_semantics.2.1 c8idx 1 (by decide) (by decide),
   c8_index_read_semantics.2.2.2 c8idx (by decide) (by decide),
   c8_index_read_semantics.1 (newIndex [] ⟨1024, 24⟩) 0 (by decide)⟩

/-- Claim C9 (store append postcondition): a store append returns
`bytesWritten = 8 + len p` and `startPosition = size`, extends the store's
logical contents with exactly the 8-byte big-endian length of `p` followed
by `p` (leaving every earlier byte — hence every earlier returned position
— untouched), and grows `size` by exactly `8 + len p`. -/
theorem c9_store_append_postcondition (s : Store) (p : List Nat)
    (h1 : lenWidth + p.length < 2 ^ 64)
    (h2 : s.size + (lenWidth + p.length) < 2 ^ 64) :
    (s.Append p).1 = lenWidth + p.length ∧
    (s.Append p).2.1 = s.size ∧
    (s.Append p).2.2.contents = s.contents ++ (uint64ToBytes p.length ++ p) ∧
    (s.Append p).2.2.size = s.size + (lenWidth + p.length) := by
  have hw : w64 (lenWidth + p.length) = lenWidth + p.length := by
    rw [w64]
    exact Nat.mod_eq_of_lt h1
  refine ⟨hw, rfl, ?_, ?_⟩
  · show s.file ++ (s.buf ++ uint64ToBytes p.length ++ p) =
      (s.file ++ s.buf) ++ (uint64ToBytes p.length ++ p)
    simp [List.append_assoc]
  · show w64 (s.size + w64 (lenWidth + p.length)) = _
    rw [hw, w64]
    exact Nat.mod_eq_of_lt h2

theorem c9_store_append_postcondition_witness :
    ((⟨[1], [2], 2⟩ : Store).Append [5, 6, 7]).1 = lenWidth + [5, 6, 7].length ∧
    ((⟨[1], [2], 2⟩ : Store).Append [5, 6, 7]).2.1 = (⟨[1], [2], 2⟩ : Store).size ∧
    ((⟨[1], [2], 2⟩ : Store).Append [5, 6, 7]).2.2.contents =
      (⟨[1], [2], 2⟩ : Store).contents ++
        (uint64ToBytes [5, 6, 7].length ++ [5, 6, 7]) ∧
    ((⟨[1], [2], 2⟩ : Store).Append [5, 6, 7]).2.2.size =
      (⟨[1], [2], 2⟩ : Store).size + (lenWidth + [5, 6, 7].length) :=
  c9_store_append_postcondition ⟨[1], [2], 2⟩ [5, 6, 7] (by decide) (by decide)

/-- One index write as performed by a caller that keeps its index when the
write fails: `index.Write` returns `io.EOF` before performing any mutation,
so a failed step leaves the state (logical size and all stored entries)
unchanged. -/
def writeStep (i : Index) (e : Nat × Nat) : Index :=
  match i.Write e.1 e.2 with
  | .ok i2 => i2
  | .error _ => i

/-- Folding `writeStep` over a list of `(relativeOffset, position)` pairs. -/
def writeAll (i : Index) (ps : List (Nat × Nat)) : Index :=
  ps.foldl writeStep i

theorem writeAll_good {i : Index} {M : Nat} {qs : List (Nat × Nat)}
    (h : IdxGood i M qs) (ps : List (Nat × Nat))
    (hcap : entWidth * (qs.length + ps.length) ≤ M)
    (hlen : qs.length + ps.length ≤ 2 ^ 32)
    (hbnd : ∀ e ∈ ps, e.1 < 2 ^ 32 ∧ e.2 < 2 ^ 64) :
    IdxGood (writeAll i ps) M (qs ++ ps) := by
  induction ps generalizing i qs with
  | nil => simpa using h
  | cons e t ih =>
    have hb := hbnd e (by simp)
    obtain ⟨i2, hw, hg2⟩ := idx_write h e.1 e.2
      (by rw [entWidth_eq] at hcap ⊢
          simp only [List.length_cons] at hcap
          omega)
      (by simp only [List.length_cons] at hlen; omega)
      hb.1 hb.2
    have hstep : writeStep i e = i2 := by
      rw [writeStep, hw]
    have hih := ih hg2
      (by rw [entWidth_eq] at hcap ⊢
          simp only [List.length_append, List.length_singleton,
            List.length_cons, List.length_nil] at hcap ⊢
          omega)
      (by simp only [List.length_append, List.length_singleton,
            List.length_cons, List.length_nil] at hlen ⊢
          omega)
      (fun e2 he2 => hbnd e2 (List.mem_cons_of_mem e he2))
    rw [writeAll, List.foldl_cons, hstep]
    have hassoc : (qs ++ [e]) ++ t = qs ++ (e :: t) := by
      rw [List.append_assoc, List.singleton_append]
    rw [← hassoc]
    exact hih

/-- Claim C10 (implicit index round-trip): writing the pairs `ps` to a
fresh index (all writes succeeding because they fit the configured
capacity) stores each pair verbatim — `Read k` returns exactly the `k`-th
written pair — and a failed (end-of-data) write returns the error without
touching the index, leaving logical size and stored entries unchanged. -/
theorem c10_index_round_trip :
    (∀ (c : Config) (ps : List (Nat × Nat)) (k : Nat) (hk : k < ps.length),
      entWidth * ps.length ≤ c.maxIndexBytes → ps.length ≤ 2 ^ 32 →
      (∀ e ∈ ps, e.1 < 2 ^ 32 ∧ e.2 < 2 ^ 64) →
      (writeAll (newIndex [] c) ps).Read (k : Int) = .ok (ps.get ⟨k, hk⟩)) ∧
    (∀ (i : Index) (o p : Nat), i.isMaxed = true →
      i.Write o p = .error .eof ∧ writeStep i (o, p) = i) := by
  refine ⟨?_, ?_⟩
  · intro c ps k hk hcap hlen hbnd
    have hgood := writeAll_good (idx_fresh c) ps
      (by simpa using hcap) (by simpa using hlen) hbnd
    have hres := idx_read_at hgood k (by simpa using hk)
    simpa using hres
  · intro i o p h
    refine ⟨idx_write_maxed i h o p, ?_⟩
    rw [writeStep, idx_write_maxed i h o p]

theorem c10_index_round_trip_witness :
    (writeAll (newIndex [] ⟨0, 24⟩) [(3, 10), (1, 20)]).Read 1 =
      .ok ([(3, 10), (1, 20)].get ⟨1, by decide⟩) ∧
    ((⟨List.replicate 12 0, 12⟩ : Index).Write 9 9 = .error .eof ∧
     writeStep ⟨List.replicate 12 0, 12⟩ (9, 9) =
       (⟨List.replicate 12 0, 12⟩ : Index)) :=
  ⟨c10_index_round_trip.1 ⟨0, 24⟩ [(3, 10), (1, 20)] 1 (by decide) (by decide)
     (by decide) (by decide),
   c10_index_round_trip.2 ⟨List.replicate 12 0, 12⟩ 9 9 (by decide)⟩

/-- Claim C6 (append atomicity on failure): whenever `segment.Append` fails
at any stage — serialization failure, store append failure, or index write
failure (including the capacity end-of-data) — the error is returned and
`nextOffset` is left unchanged, so the next successful append assigns
exactly the offset the failed call would have assigned. -/
theorem c6_append_failure_atomic (env : AppendEnv) (s : Segment) (r : Record)
    (e : LogErr) (h : (Segment.AppendFull env s r).1 = .error e) :
    (Segment.AppendFull env s r).2.nextOffset = s.nextOffset ∧
    (∀ (env2 : AppendEnv) (r2 : Record) (o : Nat) (s3 : Segment),
      Segment.AppendFull env2 (Segment.AppendFull env s r).2 r2 = (.ok o, s3) →
      o = s.nextOffset) := by
  have hnext : (Segment.AppendFull env s r).2.nextOffset = s.nextOffset := by
    by_cases hm : env.marshalOk = false
    · simp only [Segment.AppendFull, if_pos hm]
    · simp only [Segment.AppendFull, if_neg hm, Store.Append] at h ⊢
      by_cases hs : env.storeOk = false
      · simp only [if_pos hs]
      · simp only [if_neg hs] at h ⊢
        rcases hw : s.index.Write (sub64 s.nextOffset s.baseOffset % 2 ^ 32)
            s.store.size with e2 | ix
        · simp only [hw]
        · rw [hw] at h
          simp at h
  refine ⟨hnext, ?_⟩
  intro env2 r2 o s3 h2
  rw [appendFull_ok_offset env2 _ r2 o s3 h2, hnext]

theorem c6_append_failure_atomic_witness :
    (Segment.AppendFull ⟨false, true, []⟩ (newSegment [] [] 0 ⟨1024, 24⟩)
        ⟨[1], 0⟩).2.nextOffset = (newSegment [] [] 0 ⟨1024, 24⟩).nextOffset ∧
    (∀ (env2 : AppendEnv) (r2 : Record) (o : Nat) (s3 : Segment),
      Segment.AppendFull env2
          (Segment.AppendFull ⟨false, true, []⟩ (newSegment [] [] 0 ⟨1024, 24⟩)
            ⟨[1], 0⟩).2 r2 = (.ok o, s3) →
      o = (newSegment [] [] 0 ⟨1024, 24⟩).nextOffset) :=
  c6_append_failure_atomic ⟨false, true, []⟩ (newSegment [] [] 0 ⟨1024, 24⟩)
    ⟨[1], 0⟩ .marshalFail (by decide)

/-- Claim C7 (record-count invariant): `nextOffset - baseOffset` equals the
index's logical size divided by the entry width — it holds at construction
over an empty index file, holds at construction over a recovered index
(`N` 12-byte entries whose last entry stores relative offset `N - 1`), and
is preserved by every `segment.Append`, whether it succeeds or fails at the
marshal, store-write or index-write stage. -/
theorem c7_record_count_invariant :
    (∀ (sf : List Nat) (B : Nat) (c : Config),
      (newSegment sf [] B c).baseOffset ≤ (newSegment sf [] B c).nextOffset ∧
      (newSegment sf [] B c).nextOffset - (newSegment sf [] B c).baseOffset =
        (newSegment sf [] B c).index.size / entWidth) ∧
    (∀ (sf f : List Nat) (B N : Nat) (c : Config),
      f.length = entWidth * N → 1 ≤ N → N ≤ 2 ^ 32 →
      entWidth * N ≤ c.maxIndexBytes →
      fromBytesBE (sliceL f ((N - 1) * entWidth) offWidth) = N - 1 →
      B + N < 2 ^ 64 →
      (newSegment sf f B c).baseOffset ≤ (newSegment sf f B c).nextOffset ∧
      (newSegment sf f B c).nextOffset - (newSegment sf f B c).baseOffset =
        (newSegment sf f B c).index.size / entWidth) ∧
    (∀ (env : AppendEnv) (s : Segment) (r : Record),
      s.baseOffset ≤ s.nextOffset →
      s.nextOffset - s.baseOffset = s.index.size / entWidth →
      s.nextOffset + 1 < 2 ^ 64 →
      (Segment.AppendFull env s r).2.baseOffset ≤
        (Segment.AppendFull env s r).2.nextOffset ∧
      (Segment.AppendFull env s r).2.nextOffset -
        (Segment.AppendFull env s r).2.baseOffset =
        (Segment.AppendFull env s r).2.index.size / entWidth) := by
  refine ⟨?_, ?_, ?_⟩
  · intro sf B c
    have hn := newSegment_fresh_next sf B c
    constructor
    · rw [hn]
      exact Nat.le_refl B
    · rw [hn]
      show B - B = (([] : List Nat).length) / entWidth
      simp
  · intro sf f B N c hlen hN hN32 hcap hlast hwrap
    have hn := newSegment_recover sf f B N c hlen hN hN32 hcap hlast hwrap
    have hsz : (newSegment sf f B c).index.size = entWidth * N := by
      show (newIndex f c).size = entWidth * N
      simp [newIndex, hlen]
    constructor
    · rw [hn]
      show B ≤ B + N
      omega
    · rw [hn, hsz]
      show B + N - B = entWidth * N / entWidth
      rw [Nat.mul_div_cancel_left _ (by rw [entWidth_eq]; omega)]
      omega
  · intro env s r hb hinv hw64
    by_cases hm : env.marshalOk = false
    · simp only [Segment.AppendFull, if_pos hm]
      exact ⟨hb, hinv⟩
    · simp only [Segment.AppendFull, if_neg hm, Store.Append]
      by_cases hs : env.storeOk = false
      · simp only [if_pos hs]
        exact ⟨hb, hinv⟩
      · simp only [if_neg hs]
        rcases hw : s.index.Write (sub64 s.nextOffset s.baseOffset % 2 ^ 32)
            s.store.size with e2 | ix
        · simp only [hw]
          exact ⟨hb, hinv⟩
        · simp only [hw]
          have hsz := idx_write_ok_size _ _ _ _ hw
          have hn1 : w64 (s.nextOffset + 1) = s.nextOffset + 1 := by
            rw [w64]
            exact Nat.mod_eq_of_lt hw64
          constructor
          · show s.baseOffset ≤ w64 (s.nextOffset + 1)
            rw [hn1]
            omega
          · show w64 (s.nextOffset + 1) - s.baseOffset = ix.size / entWidth
            rw [hn1, hsz, entWidth_eq]
            rw [entWidth_eq] at hinv
            omega

theorem c7_record_count_invariant_witness :
    ((newSegment [] [] 3 ⟨1024, 24⟩).baseOffset ≤
        (newSegment [] [] 3 ⟨1024, 24⟩).nextOffset ∧
      (newSegment [] [] 3 ⟨1024, 24⟩).nextOffset -
          (newSegment [] [] 3 ⟨1024, 24⟩).baseOffset =
        (newSegment [] [] 3 ⟨1024, 24⟩).index.size / entWidth) ∧
    ((newSegment [] (uint32ToBytes 0 ++ uint64ToBytes 7) 3 ⟨1024, 24⟩).baseOffset ≤
        (newSegment [] (uint32ToBytes 0 ++ uint64ToBytes 7) 3 ⟨1024, 24⟩).nextOffset ∧
      (newSegment [] (uint32ToBytes 0 ++ uint64ToBytes 7) 3 ⟨1024, 24⟩).nextOffset -
          (newSegment [] (uint32ToBytes 0 ++ uint64ToBytes 7) 3 ⟨1024, 24⟩).baseOffset =
        (newSegment [] (uint32ToBytes 0 ++ uint64ToBytes 7) 3 ⟨1024, 24⟩).index.size /
          entWidth) ∧
    ((Segment.AppendFull ⟨true, true, []⟩ (newSegment [] [] 0 ⟨1024, 24⟩)
          ⟨[1], 0⟩).2.baseOffset ≤
        (Segment.AppendFull ⟨true, true, []⟩ (newSegment [] [] 0 ⟨1024, 24⟩)
          ⟨[1], 0⟩).2.nextOffset ∧
      (Segment.AppendFull ⟨true, true, []⟩ (newSegment [] [] 0 ⟨1024, 24⟩)
            ⟨[1], 0⟩).2.nextOffset -
          (Segment.AppendFull ⟨true, true, []⟩ (newSegment [] [] 0 ⟨1024, 24⟩)
            ⟨[1], 0⟩).2.baseOffset =
        (Segment.AppendFull ⟨true, true, []⟩ (newSegment [] [] 0 ⟨1024, 24⟩)
          ⟨[1], 0⟩).2.index.size / entWidth) :=
  ⟨c7_record_count_invariant.1 [] 3 ⟨1024, 24⟩,
   c7_record_count_invariant.2.1 [] (uint32ToBytes 0 ++ uint64ToBytes 7) 3 1
     ⟨1024, 24⟩ (by decide) (by decide) (by decide) (by decide) (by decide)
     (by decide),
   c7_record_count_invariant.2.2 ⟨true, true, []⟩ (newSegment [] [] 0 ⟨1024, 24⟩)
     ⟨[1], 0⟩ (by decide) (by decide) (by decide)⟩

/-- Segment configuration of the concrete capacity scenario:
`MaxStoreBytes = 1024`, `MaxIndexBytes = 36` (three index entries). -/
def c5cfg : Config := { maxStoreBytes := 1024, maxIndexBytes := 36 }

/-- Fresh segment of the concrete capacity scenario, base offset 0. -/
def c5s0 : Segment := newSegment [] [] 0 c5cfg

/-- The scenario segment after appending "hello". -/
def c5s1 : Segment :=
  (c5s0.Append { value := [104, 101, 108, 108, 111], offset := 0 }).2

/-- The scenario segment after appending "hello", "world". -/
def c5s2 : Segment :=
  (c5s1.Append { value := [119, 111, 114, 108, 100], offset := 0 }).2

/-- The scenario segment after appending "hello", "world", "foo". -/
def c5s3 : Segment :=
  (c5s2.Append { value := [102, 111, 111], offset := 0 }).2

/-- Claim C5 (capacity): with `MaxIndexBytes = 12 * K`, `K` appends to a
fresh segment all succeed and return the first `K` offsets in order, after
which `IsMaxed()` is true and every further index write fails with the
end-of-data signal.  Concrete scenario: `MaxStoreBytes = 1024`,
`MaxIndexBytes = 36`, appending "hello", "world", "foo" at base 0 returns
offsets 0, 1, 2; `IsMaxed()` is false before and becomes true only after
the third append; a fourth index write fails with end-of-data. -/
theorem c5_capacity :
    (∀ (K B : Nat) (rs : List Record) (c : Config),
      1 ≤ K → rs.length = K → c.maxIndexBytes = entWidth * K →
      B + K < 2 ^ 64 → K ≤ 2 ^ 32 →
      storeLen (rs.map Record.value) < 2 ^ 64 →
      ∃ s2,
        appendAll (newSegment [] [] B c) rs =
          ((List.range K).map (fun i => Except.ok (B + i)), s2) ∧
        s2.IsMaxed = true ∧
        (∀ o p, s2.index.Write o p = .error .eof)) ∧
    ((c5s0.Append { value := [104, 101, 108, 108, 111], offset := 0 }).1 =
        .ok 0 ∧
     (c5s1.Append { value := [119, 111, 114, 108, 100], offset := 0 }).1 =
        .ok 1 ∧
     (c5s2.Append { value := [102, 111, 111], offset := 0 }).1 = .ok 2 ∧
     c5s0.IsMaxed = false ∧ c5s1.IsMaxed = false ∧ c5s2.IsMaxed = false ∧
     c5s3.IsMaxed = true ∧
     (∀ o p, c5s3.index.Write o p = .error .eof)) := by
  constructor
  · intro K B rs c hK hlen hmax hwrap h32 hsmall
    obtain ⟨s2, happ, hgood⟩ := appendAll_good (good_fresh B c (by omega)) rs
      (by simp only [List.length_nil, Nat.zero_add, hlen, hmax]
          exact Nat.le_refl _)
      (by simp only [List.length_nil, Nat.add_zero, Nat.zero_add]; omega)
      (by simp only [List.length_nil, Nat.zero_add]; omega)
      (by simp only [List.nil_append]; exact hsmall)
    have hsize2 : s2.index.size = c.maxIndexBytes := by
      rw [hgood.idx.size_eq, length_idxEntries, hmax]
      simp [hlen]
    refine ⟨s2, ?_, ?_, ?_⟩
    · rw [← hlen]
      exact happ
    · have hdec : decide (c.maxIndexBytes ≤ s2.index.size) = true := by
        rw [hsize2]
        simp
      simp only [Segment.IsMaxed, hgood.cfg_eq, hdec, Bool.or_true,
        Bool.true_or]
    · intro o p
      apply idx_write_maxed
      have hml := hgood.idx.mmap_length
      rw [Index.isMaxed, hml, hsize2]
      simp [entWidth_eq]
  · refine ⟨by decide, by decide, by decide, by decide, by decide, by decide,
      by decide, ?_⟩
    intro o p
    exact idx_write_maxed c5s3.index (by decide) o p

theorem c5_capacity_witness :
    ∃ s2, appendAll (newSegment [] [] 0 ⟨1024, 12⟩) [⟨[1], 0⟩] =
        ((List.range 1).map (fun i => Except.ok (0 + i)), s2) ∧
      s2.IsMaxed = true ∧ (∀ o p, s2.index.Write o p = .error .eof) :=
  c5_capacity.1 1 0 [⟨[1], 0⟩] ⟨1024, 12⟩ (by decide) (by decide) (by decide)
    (by decide) (by decide) (by decide)

/-- Record sequence used by the monotonicity witness. -/
def c3rs : List Record := [⟨[1], 0⟩, ⟨[2], 0⟩]

/-- Claim C3 (monotonicity): `N` sequential appends to a fresh segment with
base offset `B` return exactly the offsets `B, B+1, …, B+N-1` in order
(no gaps, no repeats), and after closing the segment and reconstructing it
over the same files, the `(N+1)`-th append returns `B + N`. -/
theorem c3_monotonic_offsets (B : Nat) (c : Config) (rs : List Record)
    (r2 : Record)
    (hcap : entWidth * (rs.length + 1) ≤ c.maxIndexBytes)
    (hwrap : B + rs.length + 1 < 2 ^ 64)
    (hcount : rs.length + 1 ≤ 2 ^ 32)
    (hsmall : storeLen (rs.map Record.value) + entryLen r2.value < 2 ^ 64) :
    ∃ s2, appendAll (newSegment [] [] B c) rs =
        ((List.range rs.length).map (fun i => Except.ok (B + i)), s2) ∧
      ∃ s3,
        (newSegment (closeStore s2.store) (closeIndex s2.index) B c).Append r2 =
          (.ok (B + rs.length), s3) := by
  obtain ⟨s2, happ, hgood⟩ := appendAll_good (good_fresh B c (by omega)) rs
    (by rw [entWidth_eq] at hcap ⊢
        simp only [List.length_nil, Nat.zero_add]
        omega)
    (by simp only [List.length_nil, Nat.add_zero, Nat.zero_add]; omega)
    (by simp only [List.length_nil, Nat.zero_add]; omega)
    (by simp only [List.nil_append]; omega)
  have hre := good_reopen hgood
  obtain ⟨s3, happ2, _⟩ := good_append hre r2
    (by rw [entWidth_eq] at hcap ⊢
        simp only [List.nil_append, List.length_map]
        omega)
    (by simp only [List.nil_append, List.length_map]; omega)
    (by simp only [List.nil_append, List.length_map]; omega)
    (by rw [storeLen_snoc]
        simp only [List.nil_append]
        omega)
  refine ⟨s2, happ, s3, ?_⟩
  have hl : ((([] : List (List Nat)) ++ rs.map Record.value)).length =
      rs.length := by
    simp
  rw [hl] at happ2
  exact happ2

theorem c3_monotonic_offsets_witness :
    ∃ s2, appendAll (newSegment [] [] 10 ⟨1024, 48⟩) c3rs =
        ((List.range c3rs.length).map (fun i => Except.ok (10 + i)), s2) ∧
      ∃ s3,
        (newSegment (closeStore s2.store) (closeIndex s2.index) 10
            ⟨1024, 48⟩).Append ⟨[3], 0⟩ = (.ok (10 + c3rs.length), s3) :=
  c3_monotonic_offsets 10 ⟨1024, 48⟩ c3rs ⟨[3], 0⟩ (by decide) (by decide)
    (by decide) (by decide)

/-- Segment with base offset 2 holding one appended record of value `[9]`,
used by the recovery witness. -/
def c4seg : Segment :=
  ((newSegment [] [] 2 { maxStoreBytes := 1024, maxIndexBytes := 24 }).Append
    ⟨[9], 0⟩).2

/-- Claim C4 (recovery): a segment constructed over an empty index file
recovers `nextOffset = baseOffset`; constructed over an index file of `N`
12-byte entries whose last entry stores relative offset `N - 1` it recovers
`nextOffset = baseOffset + N`; and after closing a reachable segment and
reconstructing over the same files, every previously appended record is
still readable at its original offset. -/
theorem c4_recovery :
    (∀ (sf : List Nat) (B : Nat) (c : Config),
      (newSegment sf [] B c).nextOffset = B) ∧
    (∀ (sf f : List Nat) (B N : Nat) (c : Config),
      f.length = entWidth * N → 1 ≤ N → N ≤ 2 ^ 32 →
      entWidth * N ≤ c.maxIndexBytes →
      fromBytesBE (sliceL f ((N - 1) * entWidth) offWidth) = N - 1 →
      B + N < 2 ^ 64 →
      (newSegment sf f B c).nextOffset = B + N) ∧
    (∀ (s : Segment) (B : Nat) (c : Config) (vs : List (List Nat)),
      GoodSeg s B c vs → ∀ (k : Nat) (hk : k < vs.length),
      (newSegment (closeStore s.store) (closeIndex s.index) B c).Read (B + k) =
        .ok ⟨vs.get ⟨k, hk⟩, B + k⟩) := by
  refine ⟨newSegment_fresh_next, newSegment_recover, ?_⟩
  intro s B c vs h k hk
  exact good_read (good_reopen h) k hk

theorem c4_recovery_witness :
    ((newSegment [] [] 4 ⟨1024, 24⟩).nextOffset = 4) ∧
    ((newSegment [] (uint32ToBytes 0 ++ uint64ToBytes 7) 3
        ⟨1024, 24⟩).nextOffset = 3 + 1) ∧
    ((newSegment (closeStore c4seg.store) (closeIndex c4seg.index) 2
        ⟨1024, 24⟩).Read (2 + 0) = .ok ⟨[9], 2 + 0⟩) := by
  refine ⟨c4_recovery.1 [] 4 ⟨1024, 24⟩,
    c4_recovery.2.1 [] (uint32ToBytes 0 ++ uint64ToBytes 7) 3 1 ⟨1024, 24⟩
      (by decide) (by decide) (by decide) (by decide) (by decide) (by decide),
    ?_⟩
  obtain ⟨s2, happ, hgood⟩ := good_append
    (good_fresh 2 ⟨1024, 24⟩ (by decide)) (⟨[9], 0⟩ : Record)
    (by decide) (by decide) (by decide) (by decide)
  have hc4 : c4seg = s2 := by
    rw [c4seg, happ]
  rw [hc4]
  exact c4_recovery.2.2 s2 2 ⟨1024, 24⟩ ([] ++ [[9]]) hgood 0 (by decide)

end Proglog
